import Mathlib

/-!
Verification of the triagebot comment-command core: the glob-based label
authorization filter and label-delta resolver (src/handlers/relabel.rs) and
the note command grammar (parser/src/command/note.rs).

Rust enums become Lean inductives, `BTreeSet<Label>` becomes a sorted
duplicate-free `List String` with ordered insert/remove, fallible functions
return `Except`, and the `glob` crate's pattern compiler/matcher is embedded
as an explicit token-list compiler plus a recursive matcher with the crate's
case-insensitive option.
-/

set_option maxHeartbeats 1000000

deriving instance DecidableEq for Except

/-- Embeds `TeamMembership` from src/handlers/relabel.rs. -/
inductive TeamMembership where
  | Member
  | Outsider
  | Unknown
deriving DecidableEq

/-- Embeds `CheckFilterResult` from src/handlers/relabel.rs. -/
inductive CheckFilterResult where
  | Allow
  | Deny
  | DenyUnknown
deriving DecidableEq

/-- Embeds `MatchPatternResult` from src/handlers/relabel.rs. -/
inductive MatchPatternResult where
  | Allow
  | Deny
  | NoMatch
deriving DecidableEq

/-- Embeds `RelabelConfig` (the `[relabel]` config section): the ordered ACL. -/
structure RelabelConfig where
  allow_unauthenticated : List String
deriving DecidableEq

/-- Compiled form of one glob pattern element, mirroring the `glob` crate's
`PatternToken` (`Char`, `AnyChar`, `AnySequence`, `AnyWithin`); character
classes are kept as inclusive ranges, a single character `c` being `(c, c)`. -/
inductive GlobToken where
  | char (c : Char)
  | anyChar
  | anySeq
  | anyWithin (negated : Bool) (ranges : List (Char × Char))
deriving DecidableEq

/-- Turns the raw contents of a `[...]` character class into inclusive ranges:
`a-b` triples become ranges, every other character stands for itself. -/
def toRanges : List Char → List (Char × Char)
  | a :: '-' :: b :: rest => (a, b) :: toRanges rest
  | c :: rest => (c, c) :: toRanges rest
  | [] => []

/-- Glob pattern compiler, embedding `glob::Pattern::new`: a linear scan where
`*` is `anySeq`, `?` is `anyChar`, and `[...]` (or `[!...]`) opens a character
class whose first member character is taken unconditionally (so `[]]` is the
class containing `]`); a class left unclosed at the end of the pattern is the
crate's "invalid range pattern" error.  The first argument is `none` outside a
class and `some (negated, tookFirst, contents)` inside one. -/
def compileGlobAux : Option (Bool × Bool × List Char) → List Char → Except String (List GlobToken)
  | none, [] => Except.ok []
  | none, '*' :: rest => (compileGlobAux none rest).map (fun g => GlobToken.anySeq :: g)
  | none, '?' :: rest => (compileGlobAux none rest).map (fun g => GlobToken.anyChar :: g)
  | none, '[' :: '!' :: rest => compileGlobAux (some (true, false, [])) rest
  | none, '[' :: rest => compileGlobAux (some (false, false, [])) rest
  | none, c :: rest => (compileGlobAux none rest).map (fun g => GlobToken.char c :: g)
  | some _, [] => Except.error "invalid range pattern"
  | some (neg, false, _), c :: rest => compileGlobAux (some (neg, true, [c])) rest
  | some (neg, true, acc), ']' :: rest =>
    (compileGlobAux none rest).map (fun g => GlobToken.anyWithin neg (toRanges acc) :: g)
  | some (neg, true, acc), c :: rest => compileGlobAux (some (neg, true, acc ++ [c])) rest

/-- Entry point of the glob compiler on a pattern's character list. -/
def compileGlob (cs : List Char) : Except String (List GlobToken) :=
  compileGlobAux none cs

/-- Case-insensitive membership of a character in a class's ranges (the crate
lowercases ASCII on both sides when `case_sensitive` is off). -/
def charInRanges (ranges : List (Char × Char)) (d : Char) : Bool :=
  ranges.any (fun r => r.1.toLower ≤ d.toLower && d.toLower ≤ r.2.toLower)

/-- Glob matcher, embedding `glob::Pattern::matches_with` with
`case_sensitive = false` (the only mode relabel uses): characters compare
ASCII-lowercased.  The crate's `AnySequence` backtracking (try the empty
match, else consume one character and retry) succeeds exactly when the rest
of the pattern matches some suffix of the text, which is how it is written
here so that the recursion is structural on the pattern. -/
def globMatch : List GlobToken → List Char → Bool
  | [], s => s.isEmpty
  | GlobToken.anySeq :: ps, s => s.tails.any (fun t => globMatch ps t)
  | GlobToken.anyChar :: ps, s =>
    match s with
    | [] => false
    | _ :: rest => globMatch ps rest
  | GlobToken.char c :: ps, s =>
    match s with
    | [] => false
    | d :: rest => (c.toLower = d.toLower) && globMatch ps rest
  | GlobToken.anyWithin neg ranges :: ps, s =>
    match s with
    | [] => false
    | d :: rest => (charInRanges ranges d != neg) && globMatch ps rest

/-- Embeds `match_pattern` from src/handlers/relabel.rs: strip a leading `!`
into the `inverse` flag (`pattern.starts_with('!')` / `&pattern[1..]`, done
here on the pattern's character list), compile the rest as a glob, match
case-insensitively. -/
def match_pattern (pat label : String) : Except String MatchPatternResult :=
  let inverse : Bool :=
    match pat.data with
    | '!' :: _ => true
    | _ => false
  let stripped : List Char := if inverse then pat.data.tail else pat.data
  match compileGlob stripped with
  | Except.error err => Except.error err
  | Except.ok glob =>
    Except.ok (match globMatch glob label.data, inverse with
      | true, false => MatchPatternResult.Allow
      | true, true => MatchPatternResult.Deny
      | false, _ => MatchPatternResult.NoMatch)

/-- Embeds the `for pattern in &config.allow_unauthenticated` loop of
`check_filter`, carrying the mutable `matched` flag: an `Allow` match sets it,
a `Deny` match resets it and breaks (returning `ok false`), a pattern error
aborts with the `failed to match pattern` message. -/
def checkFilterLoop (label : String) : List String → Bool → Except String Bool
  | [], matched => Except.ok matched
  | p :: rest, matched =>
    match match_pattern p label with
    | Except.ok MatchPatternResult.Allow => checkFilterLoop label rest true
    | Except.ok MatchPatternResult.Deny => Except.ok false
    | Except.ok MatchPatternResult.NoMatch => checkFilterLoop label rest matched
    | Except.error _ => Except.error ("failed to match pattern " ++ p)

/-- Embeds `check_filter` from src/handlers/relabel.rs. -/
def check_filter (label : String) (config : RelabelConfig) (is_member : TeamMembership) :
    Except String CheckFilterResult :=
  if is_member = TeamMembership.Member then
    Except.ok CheckFilterResult.Allow
  else
    match checkFilterLoop label config.allow_unauthenticated false with
    | Except.error e => Except.error e
    | Except.ok true => Except.ok CheckFilterResult.Allow
    | Except.ok false =>
      if is_member = TeamMembership.Outsider then Except.ok CheckFilterResult.Deny
      else Except.ok CheckFilterResult.DenyUnknown

/-- Embeds the per-delta `match check_filter(..)` arm of `handle_command`
(src/handlers/relabel.rs lines 32-49): the message, if any, that is posted as
an `ErrorComment` reply to the requesting user for one label's filter result.
`Allow` posts nothing; `Deny` and `DenyUnknown` post their fixed texts; an
`Err` from `check_filter` is posted verbatim. -/
def handleCommandUserMessage (label : String) (res : Except String CheckFilterResult) :
    Option String :=
  match res with
  | Except.ok CheckFilterResult.Allow => none
  | Except.ok CheckFilterResult.Deny =>
    some ("Label " ++ label ++ " can only be set by Rust team members")
  | Except.ok CheckFilterResult.DenyUnknown =>
    some ("Label " ++ label ++
      " can only be set by Rust team members;we were unable to check if you are a team member.")
  | Except.error err => some err

/-- Embeds `LabelDelta` from parser/src/command/relabel.rs (a label here is its
name string, as in the `Label { name }` newtype). -/
inductive LabelDelta where
  | Add (label : String)
  | Remove (label : String)
deriving DecidableEq

/-- Boolean lexicographic strict order on character lists, the order `Ord` on
Rust strings uses (proved below to agree with the ambient `<` on `String`).
Written as an executable function so that set operations kernel-evaluate. -/
def charsLtB : List Char → List Char → Bool
  | [], [] => false
  | [], _ :: _ => true
  | _ :: _, [] => false
  | a :: as, b :: bs => if a < b then true else if a = b then charsLtB as bs else false

/-- Boolean lexicographic strict order on label names. -/
def strLtB (x y : String) : Bool :=
  charsLtB x.data y.data

/-- Ordered insertion into a `BTreeSet<Label>` modelled as a sorted
duplicate-free list (ordered by the label name as `BTreeSet` is by `Ord`). -/
def btreeInsert (x : String) : List String → List String
  | [] => [x]
  | y :: ys =>
    if strLtB x y then x :: y :: ys
    else if x = y then y :: ys
    else y :: btreeInsert x ys

/-- Removal from a `BTreeSet<Label>` modelled as a list: returns
(`was present`, remaining elements), like `BTreeSet::remove`. -/
def btreeRemove (x : String) : List String → Bool × List String
  | [] => (false, [])
  | y :: ys =>
    if x = y then (true, ys)
    else
      let p := btreeRemove x ys
      (p.1, y :: p.2)

/-- Embeds the directive loop of `compute_label_deltas`: for `Add`, first try
to cancel a pending remove (`!remove.remove(&label)`), else insert into the
add set; `Remove` is the mirror image. -/
def computeGo : List LabelDelta → List String → List String → List String × List String
  | [], add, remove => (add, remove)
  | LabelDelta.Add label :: rest, add, remove =>
    let p := btreeRemove label remove
    if p.1 then computeGo rest add p.2
    else computeGo rest (btreeInsert label add) p.2
  | LabelDelta.Remove label :: rest, add, remove =>
    let p := btreeRemove label add
    if p.1 then computeGo rest p.2 remove
    else computeGo rest p.2 (btreeInsert label remove)

/-- Embeds `compute_label_deltas` from src/handlers/relabel.rs: fold the
directives over two empty `BTreeSet`s and return their sorted contents. -/
def compute_label_deltas (deltas : List LabelDelta) : List String × List String :=
  computeGo deltas [] []

/-- The label a directive concerns (`delta.label()`). -/
def deltaLabel : LabelDelta → String
  | LabelDelta.Add label => label
  | LabelDelta.Remove label => label

/-- Modelled from the spec: literal in-order application of the directives to
a prior label set (`Add(L)` inserts L, `Remove(L)` deletes L), the reference
point of the resolver-equivalence sentence of section 4.4.  The prior state is
a list of label names treated as a set through membership. -/
def applyDeltasInOrder : List LabelDelta → List String → List String
  | [], s => s
  | LabelDelta.Add label :: rest, s =>
    applyDeltasInOrder rest (if label ∈ s then s else s ++ [label])
  | LabelDelta.Remove label :: rest, s =>
    applyDeltasInOrder rest (s.filter (fun y => y ≠ label))

/-- Per-label view of the resolver state: for a fixed label, the pair
(pending-add, pending-remove) tracked through one directive list.  `(false,
false)` is the spec's `None` state, `(true, false)` is `PendingAdd`, `(false,
true)` is `PendingRemove`. -/
def pfold : List LabelDelta → String → Bool × Bool → Bool × Bool
  | [], _, st => st
  | LabelDelta.Add l :: rest, x, st =>
    pfold rest x (if l = x then (if st.2 then (st.1, false) else (true, false)) else st)
  | LabelDelta.Remove l :: rest, x, st =>
    pfold rest x (if l = x then (if st.1 then (false, st.2) else (false, true)) else st)

/-- Per-label view of in-order application: whether a fixed label is in the
set after the directives run, given whether it was before. -/
def papply : List LabelDelta → String → Bool → Bool
  | [], _, b => b
  | LabelDelta.Add l :: rest, x, b => papply rest x (if l = x then true else b)
  | LabelDelta.Remove l :: rest, x, b => papply rest x (if l = x then false else b)

/-- Embeds `Token` from the parser crate's tokenizer: a bare `Word` or the
resolved contents of a `Quote`. -/
inductive Token where
  | Word (s : String)
  | Quote (s : String)
deriving DecidableEq

/-- Diagnostic kinds for the parser model: the note grammar's `MissingTitle`,
the lexer's unterminated-quote error, and a fuel-exhaustion marker for the
model's bounded loop (unreachable for fuel above the input length, since every
token consumes at least one character). -/
inductive ErrKind where
  | missingTitle
  | unterminatedString
  | outOfFuel
deriving DecidableEq

/-- Embeds the parser crate's `Error`: a diagnostic anchored at the byte
offset in the original input where parsing could not continue. -/
structure PError where
  pos : Nat
  kind : ErrKind
deriving DecidableEq

/-- Modelled from the spec (section 4.1, parser/src/token.rs is not in the
shown sources): a cursor over the remaining input characters plus the absolute
offset into the original text.  Cloning is plain value copying. -/
structure Tokenizer where
  chars : List Char
  pos : Nat
deriving DecidableEq

/-- Builds the cursor at the start of an input string. -/
def Tokenizer.new (s : String) : Tokenizer :=
  { chars := s.data, pos := 0 }

/-- Skips a run of whitespace, advancing the offset. -/
def skipWsAux : List Char → Nat → List Char × Nat
  | [], pos => ([], pos)
  | c :: rest, pos =>
    if c.isWhitespace then skipWsAux rest (pos + 1) else (c :: rest, pos)

/-- Cursor form of `skipWsAux`. -/
def skipWs (t : Tokenizer) : Tokenizer :=
  let p := skipWsAux t.chars t.pos
  { chars := p.1, pos := p.2 }

/-- Modelled from the spec: scan a quoted span after its opening delimiter up
to the first unescaped closing `"`, resolving `\`-escapes; `none` when the
quote is never closed.  Returns the resolved contents and the characters after
the closing delimiter. -/
def scanQuoted : List Char → Option (List Char × List Char)
  | [] => none
  | c :: rest =>
    if c = '"' then some ([], rest)
    else if c = '\\' then
      match rest with
      | [] => none
      | d :: rest2 => (scanQuoted rest2).map (fun p => (d :: p.1, p.2))
    else (scanQuoted rest).map (fun p => (c :: p.1, p.2))

/-- Characters a bare word may contain: anything but whitespace and the quote
delimiter. -/
def wordChar (c : Char) : Bool :=
  !c.isWhitespace && c ≠ '"'

/-- Modelled from the spec (section 4.1): `next_token` skips whitespace, then
returns `none` at end of input, lexes a quoted token at a `"` (an unterminated
quote is an error anchored at the opening delimiter's offset), and otherwise
a maximal run of word characters. -/
def next_token (t : Tokenizer) : Except PError (Option Token × Tokenizer) :=
  let t2 := skipWs t
  match t2.chars with
  | [] => Except.ok (none, t2)
  | c :: cs =>
    if c = '"' then
      match scanQuoted cs with
      | none => Except.error { pos := t2.pos, kind := ErrKind.unterminatedString }
      | some p =>
        Except.ok (some (Token.Quote (String.mk p.1)),
          { chars := p.2, pos := t2.pos + ((c :: cs).length - p.2.length) })
    else
      Except.ok (some (Token.Word (String.mk (c :: cs.takeWhile wordChar))),
        { chars := cs.drop (cs.takeWhile wordChar).length,
          pos := t2.pos + (c :: cs.takeWhile wordChar).length })

/-- Non-consuming look-ahead: the token `next_token` would produce. -/
def peek_token (t : Tokenizer) : Except PError (Option Token) :=
  (next_token t).map (fun p => p.1)

/-- Embeds `NoteCommand` from parser/src/command/note.rs. -/
inductive NoteCommand where
  | Summary (title : String)
  | Remove (title : String)
deriving DecidableEq

/-- The title carried by a note command. -/
def noteTitle : NoteCommand → String
  | NoteCommand.Summary title => title
  | NoteCommand.Remove title => title

/-- Embeds the `loop` of `NoteCommand::parse`: a word equal to `remove` sets
the flag and continues, a quoted token or any other word is the title and
ends the loop with `Remove{title}` or `Summary{title}` by the flag, and a
missing token is a `MissingTitle` error at the current cursor offset.  The
fuel argument bounds the recursion; each iteration consumes at least one
character, so any fuel above the remaining length behaves like the Rust
loop. -/
def noteLoop : Nat → Tokenizer → Bool → Except PError (Option NoteCommand)
  | 0, toks, _ => Except.error { pos := toks.pos, kind := ErrKind.outOfFuel }
  | fuel + 1, toks, remove =>
    match next_token toks with
    | Except.error e => Except.error e
    | Except.ok (some (Token.Word title), toks1) =>
      if title = "remove" then noteLoop fuel toks1 true
      else
        Except.ok (some (if remove then NoteCommand.Remove title
          else NoteCommand.Summary title))
    | Except.ok (some (Token.Quote title), _) =>
      Except.ok (some (if remove then NoteCommand.Remove title
        else NoteCommand.Summary title))
    | Except.ok (none, toks1) =>
      Except.error { pos := toks1.pos, kind := ErrKind.missingTitle }

/-- Embeds `NoteCommand::parse` from parser/src/command/note.rs.  The Rust
function takes `input: &mut Tokenizer` and works on `let mut toks =
input.clone()`, never writing through `input`; the model makes the `&mut`
parameter explicit by returning the caller's tokenizer alongside the result,
mirroring that the clone is the only cursor the body advances. -/
def NoteCommand.parse (input : Tokenizer) :
    Except PError (Option NoteCommand) × Tokenizer :=
  let toks := input
  match peek_token toks with
  | Except.error e => (Except.error e, input)
  | Except.ok (some (Token.Word w)) =>
    if w = "note" then
      match next_token toks with
      | Except.error e => (Except.error e, input)
      | Except.ok (_, toks1) => (noteLoop (toks1.chars.length + 1) toks1 false, input)
    else (Except.ok none, input)
  | Except.ok _ => (Except.ok none, input)

theorem charsLtB_iff_lex (as : List Char) :
    ∀ bs : List Char, charsLtB as bs = true ↔ List.Lex (fun a b => a < b) as bs := by
  induction as with
  | nil =>
    intro bs
    cases bs with
    | nil => simp [charsLtB]
    | cons b bs => exact iff_of_true rfl List.Lex.nil
  | cons a as ih =>
    intro bs
    cases bs with
    | nil => simp [charsLtB]
    | cons b bs =>
      simp only [charsLtB]
      by_cases hab : a < b
      · rw [if_pos hab]
        exact iff_of_true rfl (List.Lex.rel hab)
      · rw [if_neg hab]
        by_cases heq : a = b
        · subst heq
          rw [if_pos rfl, List.Lex.cons_iff]
          exact ih bs
        · rw [if_neg heq]
          constructor
          · intro h; exact absurd h (by simp)
          · intro h
            cases h with
            | cons h => exact absurd rfl heq
            | rel h => exact absurd h hab

theorem strLtB_iff_lt (x y : String) : strLtB x y = true ↔ x < y := by
  rw [String.lt_iff_toList_lt]
  have h2 : List.Lex (fun a b => a < b) x.data y.data ↔ x.toList < y.toList := Iff.rfl
  exact (charsLtB_iff_lex x.data y.data).trans h2

theorem strLtB_self (x : String) : strLtB x x = false := by
  by_contra h
  rw [Bool.not_eq_false] at h
  exact lt_irrefl x ((strLtB_iff_lt x x).mp h)

theorem mem_btreeInsert (a x : String) :
    ∀ s : List String, a ∈ btreeInsert x s ↔ a = x ∨ a ∈ s := by
  intro s
  induction s with
  | nil => simp [btreeInsert]
  | cons y ys ih =>
    simp only [btreeInsert]
    split
    · simp [List.mem_cons]
    · split
      · rename_i hxy
        subst hxy
        simp only [List.mem_cons]
        tauto
      · simp only [List.mem_cons, ih]
        tauto

theorem btreeRemove_fst (x : String) :
    ∀ s : List String, (btreeRemove x s).1 = true ↔ x ∈ s := by
  intro s
  induction s with
  | nil => simp [btreeRemove]
  | cons y ys ih =>
    simp only [btreeRemove]
    split
    · rename_i hxy
      subst hxy
      simp
    · rename_i hxy
      simp only [List.mem_cons]
      rw [ih]
      tauto

theorem btreeRemove_snd_sublist (x : String) :
    ∀ s : List String, List.Sublist (btreeRemove x s).2 s := by
  intro s
  induction s with
  | nil => simp [btreeRemove]
  | cons y ys ih =>
    simp only [btreeRemove]
    split
    · exact List.sublist_cons_self y ys
    · exact List.Sublist.cons₂ y ih

theorem btreeRemove_snd_of_not_mem (x : String) :
    ∀ s : List String, x ∉ s → (btreeRemove x s).2 = s := by
  intro s
  induction s with
  | nil => intro _; rfl
  | cons y ys ih =>
    intro hx
    simp only [List.mem_cons, not_or] at hx
    simp only [btreeRemove]
    rw [if_neg hx.1, ih hx.2]

theorem mem_btreeRemove_snd (a x : String) :
    ∀ s : List String, s.Nodup → (a ∈ (btreeRemove x s).2 ↔ a ∈ s ∧ a ≠ x) := by
  intro s
  induction s with
  | nil => simp [btreeRemove]
  | cons y ys ih =>
    intro hnd
    rw [List.nodup_cons] at hnd
    simp only [btreeRemove]
    split
    · rename_i hxy
      subst hxy
      simp only [List.mem_cons]
      constructor
      · intro ha
        exact ⟨Or.inr ha, fun hax => hnd.1 (hax ▸ ha)⟩
      · rintro ⟨ha | ha, hax⟩
        · exact absurd ha hax
        · exact ha
    · rename_i hxy
      simp only [List.mem_cons, ih hnd.2]
      constructor
      · rintro (hay | ⟨ha, hax⟩)
        · exact ⟨Or.inl hay, fun h => hxy (h.symm.trans hay)⟩
        · exact ⟨Or.inr ha, hax⟩
      · rintro ⟨hay | ha, hax⟩
        · exact Or.inl hay
        · exact Or.inr ⟨ha, hax⟩

theorem sorted_btreeInsert (x : String) :
    ∀ s : List String, List.Sorted (fun a b => a < b) s →
      List.Sorted (fun a b => a < b) (btreeInsert x s) := by
  intro s
  induction s with
  | nil => intro _; simp [btreeInsert]
  | cons y ys ih =>
    intro hs
    rw [List.sorted_cons] at hs
    simp only [btreeInsert]
    split
    · rename_i hxy
      have hxy2 : x < y := (strLtB_iff_lt x y).mp hxy
      rw [List.sorted_cons]
      refine ⟨?_, List.sorted_cons.mpr hs⟩
      intro b hb
      rcases List.mem_cons.mp hb with hb | hb
      · exact hb ▸ hxy2
      · exact lt_trans hxy2 (hs.1 b hb)
    · split
      · exact List.sorted_cons.mpr hs
      · rename_i hxy hne
        have hyx : y < x := by
          rcases lt_trichotomy x y with h | h | h
          · exact absurd ((strLtB_iff_lt x y).mpr h) (by simpa using hxy)
          · exact absurd h hne
          · exact h
        rw [List.sorted_cons]
        refine ⟨?_, ih hs.2⟩
        intro b hb
        rcases (mem_btreeInsert b x ys).mp hb with hb | hb
        · exact hb ▸ hyx
        · exact hs.1 b hb

/-- C1: for the ACL `["T-*", "I-*", "!I-*nominated"]`, `check_filter` returns
Allow for an Outsider on `T-release` and `I-slow` and Deny on
`I-lang-nominated`, `I-nominated` and `A-spurious`; with Unknown membership
the Deny cases become DenyUnknown and the Allow cases stay Allow; with Member
membership every one of those labels is Allow. -/
theorem check_filter_acl_precedence_table :
    (check_filter "T-release" ⟨["T-*", "I-*", "!I-*nominated"]⟩ TeamMembership.Outsider =
      Except.ok CheckFilterResult.Allow ∧
     check_filter "I-slow" ⟨["T-*", "I-*", "!I-*nominated"]⟩ TeamMembership.Outsider =
      Except.ok CheckFilterResult.Allow ∧
     check_filter "I-lang-nominated" ⟨["T-*", "I-*", "!I-*nominated"]⟩ TeamMembership.Outsider =
      Except.ok CheckFilterResult.Deny ∧
     check_filter "I-nominated" ⟨["T-*", "I-*", "!I-*nominated"]⟩ TeamMembership.Outsider =
      Except.ok CheckFilterResult.Deny ∧
     check_filter "A-spurious" ⟨["T-*", "I-*", "!I-*nominated"]⟩ TeamMembership.Outsider =
      Except.ok CheckFilterResult.Deny) ∧
    (check_filter "T-release" ⟨["T-*", "I-*", "!I-*nominated"]⟩ TeamMembership.Unknown =
      Except.ok CheckFilterResult.Allow ∧
     check_filter "I-slow" ⟨["T-*", "I-*", "!I-*nominated"]⟩ TeamMembership.Unknown =
      Except.ok CheckFilterResult.Allow ∧
     check_filter "I-lang-nominated" ⟨["T-*", "I-*", "!I-*nominated"]⟩ TeamMembership.Unknown =
      Except.ok CheckFilterResult.DenyUnknown ∧
     check_filter "I-nominated" ⟨["T-*", "I-*", "!I-*nominated"]⟩ TeamMembership.Unknown =
      Except.ok CheckFilterResult.DenyUnknown ∧
     check_filter "A-spurious" ⟨["T-*", "I-*", "!I-*nominated"]⟩ TeamMembership.Unknown =
      Except.ok CheckFilterResult.DenyUnknown) ∧
    (check_filter "T-release" ⟨["T-*", "I-*", "!I-*nominated"]⟩ TeamMembership.Member =
      Except.ok CheckFilterResult.Allow ∧
     check_filter "I-slow" ⟨["T-*", "I-*", "!I-*nominated"]⟩ TeamMembership.Member =
      Except.ok CheckFilterResult.Allow ∧
     check_filter "I-lang-nominated" ⟨["T-*", "I-*", "!I-*nominated"]⟩ TeamMembership.Member =
      Except.ok CheckFilterResult.Allow ∧
     check_filter "I-nominated" ⟨["T-*", "I-*", "!I-*nominated"]⟩ TeamMembership.Member =
      Except.ok CheckFilterResult.Allow ∧
     check_filter "A-spurious" ⟨["T-*", "I-*", "!I-*nominated"]⟩ TeamMembership.Member =
      Except.ok CheckFilterResult.Allow) := by
  decide

/-- C3: a `Member` caller is allowed unconditionally, whatever the label and
whatever the ACL; the pattern list is never consulted. -/
theorem check_filter_member_bypasses_acl (label : String) (config : RelabelConfig) :
    check_filter label config TeamMembership.Member = Except.ok CheckFilterResult.Allow :=
  rfl

/-- C4: the resolver is the per-label pending-state machine: for every label
L, `Add` on pending-add is a no-op (`[Add L, Add L]` gives add `{L}`),
re-adding after cancellation works (`[Add L, Remove L, Add L]` gives add
`{L}`), an `Add`/`Remove` pair in either order cancels to the empty delta,
and `Remove` mirrors `Add` (`[Remove L, Remove L]` gives remove `{L}`). -/
theorem compute_label_deltas_state_machine (L : String) :
    compute_label_deltas [LabelDelta.Add L, LabelDelta.Add L] = ([L], []) ∧
    compute_label_deltas [LabelDelta.Add L, LabelDelta.Remove L, LabelDelta.Add L] =
      ([L], []) ∧
    compute_label_deltas [LabelDelta.Add L, LabelDelta.Remove L] = ([], []) ∧
    compute_label_deltas [LabelDelta.Remove L, LabelDelta.Add L] = ([], []) ∧
    compute_label_deltas [LabelDelta.Remove L, LabelDelta.Remove L] = ([], [L]) := by
  refine ⟨?_, ?_, ?_, ?_, ?_⟩ <;>
    simp [compute_label_deltas, computeGo, btreeInsert, btreeRemove, strLtB_self]

/-- C6: `note remove "My Title"` parses to `Remove{title: "My Title"}`,
`note "My Title"` parses to `Summary{title: "My Title"}`, and the bare input
`note` fails with `MissingTitle` anchored at the end-of-input offset (the
length of the input). -/
theorem note_parse_backtracking_examples :
    (NoteCommand.parse (Tokenizer.new "note remove \"My Title\"")).1 =
      Except.ok (some (NoteCommand.Remove "My Title")) ∧
    (NoteCommand.parse (Tokenizer.new "note \"My Title\"")).1 =
      Except.ok (some (NoteCommand.Summary "My Title")) ∧
    (NoteCommand.parse (Tokenizer.new "note")).1 =
      Except.error { pos := ("note" : String).length, kind := ErrKind.missingTitle } := by
  decide

theorem checkFilterLoop_append_after_deny (label p : String)
    (hp : match_pattern p label = Except.ok MatchPatternResult.Deny) :
    ∀ (pre : List String) (b : Bool) (suf : List String),
      checkFilterLoop label (pre ++ p :: suf) b = checkFilterLoop label (pre ++ [p]) b := by
  intro pre
  induction pre with
  | nil => intro b suf; simp [checkFilterLoop, hp]
  | cons q pre ih =>
    intro b suf
    cases hq : match_pattern q label with
    | error e => simp [checkFilterLoop, hq]
    | ok r =>
      cases r with
      | Allow => simpa [checkFilterLoop, hq] using ih true suf
      | Deny => simp [checkFilterLoop, hq]
      | NoMatch => simpa [checkFilterLoop, hq] using ih b suf

theorem checkFilterLoop_deny_ne_true (label p : String)
    (hp : match_pattern p label = Except.ok MatchPatternResult.Deny) :
    ∀ (pre : List String) (b : Bool) (suf : List String),
      checkFilterLoop label (pre ++ p :: suf) b ≠ Except.ok true := by
  intro pre
  induction pre with
  | nil => intro b suf; simp [checkFilterLoop, hp]
  | cons q pre ih =>
    intro b suf
    cases hq : match_pattern q label with
    | error e => simp [checkFilterLoop, hq]
    | ok r =>
      cases r with
      | Allow => simpa [checkFilterLoop, hq] using ih true suf
      | Deny => simp [checkFilterLoop, hq]
      | NoMatch => simpa [checkFilterLoop, hq] using ih b suf

/-- C2: once the ordered scan hits a negated pattern that matches the label,
a non-member caller can never be allowed, and the tail of the ACL after that
pattern is irrelevant: replacing the suffix after the deny changes nothing
(so in particular no later allow pattern can override the deny). -/
theorem check_filter_deny_short_circuits (label : String) (m : TeamMembership)
    (hm : m ≠ TeamMembership.Member) (pre : List String) (p : String)
    (hp : match_pattern p label = Except.ok MatchPatternResult.Deny) (suf : List String) :
    check_filter label ⟨pre ++ p :: suf⟩ m ≠ Except.ok CheckFilterResult.Allow ∧
    check_filter label ⟨pre ++ p :: suf⟩ m = check_filter label ⟨pre ++ [p]⟩ m := by
  have hcf : ∀ acl : List String, check_filter label ⟨acl⟩ m =
      (match checkFilterLoop label acl false with
        | Except.error e => Except.error e
        | Except.ok true => Except.ok CheckFilterResult.Allow
        | Except.ok false =>
          if m = TeamMembership.Outsider then Except.ok CheckFilterResult.Deny
          else Except.ok CheckFilterResult.DenyUnknown) := by
    intro acl
    unfold check_filter
    rw [if_neg hm]
  constructor
  · cases hl : checkFilterLoop label (pre ++ p :: suf) false with
    | error e => rw [hcf, hl]; simp
    | ok b =>
      cases b with
      | false =>
        rw [hcf, hl]
        show ¬(if m = TeamMembership.Outsider then Except.ok CheckFilterResult.Deny
          else Except.ok CheckFilterResult.DenyUnknown) = Except.ok CheckFilterResult.Allow
        split <;> simp
      | true => exact absurd hl (checkFilterLoop_deny_ne_true label p hp pre false suf)
  · rw [hcf, hcf, checkFilterLoop_append_after_deny label p hp pre false suf]

theorem check_filter_deny_short_circuits_witness :
    check_filter "I-nominated" ⟨["T-*", "!I-*", "A-*"]⟩ TeamMembership.Outsider ≠
      Except.ok CheckFilterResult.Allow ∧
    check_filter "I-nominated" ⟨["T-*", "!I-*", "A-*"]⟩ TeamMembership.Outsider =
      check_filter "I-nominated" ⟨["T-*", "!I-*"]⟩ TeamMembership.Outsider := by
  have h := check_filter_deny_short_circuits "I-nominated" TeamMembership.Outsider
    (by decide) ["T-*"] "!I-*" (by decide) ["A-*"]
  exact h

/-- C8 counterexample: a malformed ACL pattern does make `check_filter`
return a configuration error rather than a verdict, but `handle_command`
posts exactly that error text as an `ErrorComment` reply to the requesting
user, so the user does receive a message derived from the configuration
error, contradicting the claim's final part. -/
theorem check_filter_config_error_reaches_user :
    check_filter "T-x" ⟨["["]⟩ TeamMembership.Outsider =
      Except.error "failed to match pattern [" ∧
    handleCommandUserMessage "T-x" (check_filter "T-x" ⟨["["]⟩ TeamMembership.Outsider) =
      some "failed to match pattern [" := by
  decide

theorem checkFilterLoop_reaches_error (label p e : String)
    (hp : match_pattern p label = Except.error e) :
    ∀ (pre : List String),
      (∀ q ∈ pre, match_pattern q label = Except.ok MatchPatternResult.Allow ∨
        match_pattern q label = Except.ok MatchPatternResult.NoMatch) →
      ∀ (b : Bool) (suf : List String),
        checkFilterLoop label (pre ++ p :: suf) b =
          Except.error ("failed to match pattern " ++ p) := by
  intro pre
  induction pre with
  | nil => intro _ b suf; simp [checkFilterLoop, hp]
  | cons q pre ih =>
    intro hpre b suf
    have hrest : ∀ r ∈ pre, match_pattern r label = Except.ok MatchPatternResult.Allow ∨
        match_pattern r label = Except.ok MatchPatternResult.NoMatch :=
      fun r hr => hpre r (List.mem_cons_of_mem q hr)
    rcases hpre q (List.mem_cons_self q pre) with hq | hq
    · simpa [checkFilterLoop, hq] using ih hrest true suf
    · simpa [checkFilterLoop, hq] using ih hrest b suf

/-- C8 as amended: when the ordered scan reaches a malformed pattern `p` —
every pattern before it matched positively or not at all, so neither a deny
break nor an earlier error stopped the loop — `check_filter` returns
`Err("failed to match pattern p")` instead of any Allow/Deny/DenyUnknown
verdict (the detailed glob error stays on the operator's log), and
`handle_command` posts that generic failure text to the requesting user as an
error comment. -/
theorem check_filter_malformed_pattern_errors (label : String) (m : TeamMembership)
    (hm : m ≠ TeamMembership.Member) (pre : List String)
    (hpre : ∀ q ∈ pre, match_pattern q label = Except.ok MatchPatternResult.Allow ∨
      match_pattern q label = Except.ok MatchPatternResult.NoMatch)
    (p e : String) (hp : match_pattern p label = Except.error e) (suf : List String) :
    check_filter label ⟨pre ++ p :: suf⟩ m =
      Except.error ("failed to match pattern " ++ p) ∧
    handleCommandUserMessage label (check_filter label ⟨pre ++ p :: suf⟩ m) =
      some ("failed to match pattern " ++ p) := by
  have hshape : ∀ acl : List String, check_filter label ⟨acl⟩ m =
      (match checkFilterLoop label acl false with
        | Except.error e2 => Except.error e2
        | Except.ok true => Except.ok CheckFilterResult.Allow
        | Except.ok false =>
          if m = TeamMembership.Outsider then Except.ok CheckFilterResult.Deny
          else Except.ok CheckFilterResult.DenyUnknown) := by
    intro acl
    unfold check_filter
    rw [if_neg hm]
  have hcf : check_filter label ⟨pre ++ p :: suf⟩ m =
      Except.error ("failed to match pattern " ++ p) := by
    rw [hshape, checkFilterLoop_reaches_error label p e hp pre hpre false suf]
  exact ⟨hcf, by rw [hcf]; rfl⟩

theorem check_filter_malformed_pattern_errors_witness :
    check_filter "T-x" ⟨["A-*", "T-*", "[", "B-*"]⟩ TeamMembership.Unknown =
      Except.error "failed to match pattern [" ∧
    handleCommandUserMessage "T-x"
        (check_filter "T-x" ⟨["A-*", "T-*", "[", "B-*"]⟩ TeamMembership.Unknown) =
      some "failed to match pattern [" := by
  have h := check_filter_malformed_pattern_errors "T-x" TeamMembership.Unknown
    (by decide) ["A-*", "T-*"] (by decide) "[" "invalid range pattern" (by decide) ["B-*"]
  exact h

/-- C9: a `NoteCommand::parse` attempt that declines (`Ok(None)`) or fails
(`Err`) leaves the caller's tokenizer exactly as it was: the body only ever
advances its local clone, and in fact never writes through the caller's
cursor at all. -/
theorem note_parse_decline_preserves_tokenizer (t : Tokenizer)
    (_h : (NoteCommand.parse t).1 = Except.ok none ∨
      ∃ e, (NoteCommand.parse t).1 = Except.error e) :
    (NoteCommand.parse t).2 = t := by
  cases hpk : peek_token t with
  | error e => simp [NoteCommand.parse, hpk]
  | ok tk =>
    cases tk with
    | none => simp [NoteCommand.parse, hpk]
    | some tok =>
      cases tok with
      | Quote s => simp [NoteCommand.parse, hpk]
      | Word w =>
        by_cases hw : w = "note"
        · subst hw
          cases hnt : next_token t with
          | error e => simp [NoteCommand.parse, hpk, hnt]
          | ok p => simp [NoteCommand.parse, hpk, hnt]
        · simp [NoteCommand.parse, hpk, hw]

theorem note_parse_decline_preserves_tokenizer_witness :
    (NoteCommand.parse (Tokenizer.new "no command here")).2 =
      Tokenizer.new "no command here" :=
  note_parse_decline_preserves_tokenizer (Tokenizer.new "no command here")
    (Or.inl (by decide))

theorem computeGo_sorted_disjoint :
    ∀ (D : List LabelDelta) (add remove : List String),
      List.Sorted (fun a b => a < b) add → List.Sorted (fun a b => a < b) remove →
      List.Disjoint add remove →
      (List.Sorted (fun a b => a < b) (computeGo D add remove).1 ∧
       List.Sorted (fun a b => a < b) (computeGo D add remove).2 ∧
       List.Disjoint (computeGo D add remove).1 (computeGo D add remove).2) := by
  intro D
  induction D with
  | nil => intro add remove hadd hrem hdis; exact ⟨hadd, hrem, hdis⟩
  | cons d rest ih =>
    intro add remove hadd hrem hdis
    cases d with
    | Add l =>
      simp only [computeGo]
      split
      · exact ih add (btreeRemove l remove).2 hadd
          (hrem.sublist (btreeRemove_snd_sublist l remove))
          (fun a ha har => hdis ha ((btreeRemove_snd_sublist l remove).subset har))
      · rename_i hp
        have hlnm : l ∉ remove := fun hc =>
          hp ((btreeRemove_fst l remove).mpr hc)
        rw [btreeRemove_snd_of_not_mem l remove hlnm]
        refine ih (btreeInsert l add) remove (sorted_btreeInsert l add hadd) hrem ?_
        intro a ha har
        rcases (mem_btreeInsert a l add).mp ha with rfl | ha
        · exact hlnm har
        · exact hdis ha har
    | Remove l =>
      simp only [computeGo]
      split
      · exact ih (btreeRemove l add).2 remove
          (hadd.sublist (btreeRemove_snd_sublist l add))
          hrem
          (fun a ha har => hdis ((btreeRemove_snd_sublist l add).subset ha) har)
      · rename_i hp
        have hlnm : l ∉ add := fun hc =>
          hp ((btreeRemove_fst l add).mpr hc)
        rw [btreeRemove_snd_of_not_mem l add hlnm]
        refine ih add (btreeInsert l remove) hadd (sorted_btreeInsert l remove hrem) ?_
        intro a ha har
        rcases (mem_btreeInsert a l remove).mp har with rfl | har
        · exact hlnm ha
        · exact hdis ha har

/-- C10: the add and remove lists computed by `compute_label_deltas` are
sorted in ascending label order, duplicate-free, and share no label. -/
theorem compute_label_deltas_sorted_disjoint (D : List LabelDelta) :
    List.Sorted (fun a b => a < b) (compute_label_deltas D).1 ∧
    List.Sorted (fun a b => a < b) (compute_label_deltas D).2 ∧
    (compute_label_deltas D).1.Nodup ∧
    (compute_label_deltas D).2.Nodup ∧
    List.Disjoint (compute_label_deltas D).1 (compute_label_deltas D).2 := by
  have h := computeGo_sorted_disjoint D [] [] (by simp) (by simp) (by simp [List.Disjoint])
  exact ⟨h.1, h.2.1, h.1.nodup, h.2.1.nodup, h.2.2⟩

theorem computeGo_mem (x : String) :
    ∀ (D : List LabelDelta) (add remove : List String),
      List.Sorted (fun a b => a < b) add → List.Sorted (fun a b => a < b) remove →
      (decide (x ∈ (computeGo D add remove).1),
       decide (x ∈ (computeGo D add remove).2)) =
        pfold D x (decide (x ∈ add), decide (x ∈ remove)) := by
  intro D
  induction D with
  | nil => intro add remove _ _; rfl
  | cons d rest ih =>
    intro add remove hadd hrem
    cases d with
    | Add l =>
      simp only [computeGo, pfold]
      split
      · rename_i hc
        have hmem : l ∈ remove := (btreeRemove_fst l remove).mp hc
        rw [ih add (btreeRemove l remove).2 hadd
          (hrem.sublist (btreeRemove_snd_sublist l remove))]
        congr 1
        by_cases hlx : l = x
        · subst hlx
          simp [mem_btreeRemove_snd l l remove hrem.nodup, hmem]
        · have hxl : x ≠ l := fun hcc => hlx hcc.symm
          simp [mem_btreeRemove_snd x l remove hrem.nodup, hlx, hxl]
      · rename_i hc
        have hmem : l ∉ remove := fun hm => hc ((btreeRemove_fst l remove).mpr hm)
        rw [btreeRemove_snd_of_not_mem l remove hmem]
        rw [ih (btreeInsert l add) remove (sorted_btreeInsert l add hadd) hrem]
        congr 1
        by_cases hlx : l = x
        · subst hlx
          simp [mem_btreeInsert l l add, hmem]
        · have hxl : x ≠ l := fun hcc => hlx hcc.symm
          simp [mem_btreeInsert x l add, hlx, hxl]
    | Remove l =>
      simp only [computeGo, pfold]
      split
      · rename_i hc
        have hmem : l ∈ add := (btreeRemove_fst l add).mp hc
        rw [ih (btreeRemove l add).2 remove
          (hadd.sublist (btreeRemove_snd_sublist l add)) hrem]
        congr 1
        by_cases hlx : l = x
        · subst hlx
          simp [mem_btreeRemove_snd l l add hadd.nodup, hmem]
        · have hxl : x ≠ l := fun hcc => hlx hcc.symm
          simp [mem_btreeRemove_snd x l add hadd.nodup, hlx, hxl]
      · rename_i hc
        have hmem : l ∉ add := fun hm => hc ((btreeRemove_fst l add).mpr hm)
        rw [btreeRemove_snd_of_not_mem l add hmem]
        rw [ih add (btreeInsert l remove) hadd (sorted_btreeInsert l remove hrem)]
        congr 1
        by_cases hlx : l = x
        · subst hlx
          simp [mem_btreeInsert l l remove, hmem]
        · have hxl : x ≠ l := fun hcc => hlx hcc.symm
          simp [mem_btreeInsert x l remove, hlx, hxl]

theorem compute_label_deltas_mem (x : String) (D : List LabelDelta) :
    (decide (x ∈ (compute_label_deltas D).1),
     decide (x ∈ (compute_label_deltas D).2)) = pfold D x (false, false) := by
  have h := computeGo_mem x D [] [] (by simp) (by simp)
  simpa using h

theorem pfold_of_not_mem (x : String) :
    ∀ (D : List LabelDelta) (st : Bool × Bool),
      x ∉ D.map deltaLabel → pfold D x st = st := by
  intro D
  induction D with
  | nil => intro st _; rfl
  | cons d rest ih =>
    intro st hx
    cases d with
    | Add l =>
      simp only [List.map_cons, List.mem_cons, not_or, deltaLabel] at hx
      have hne : ¬ l = x := fun hc => hx.1 hc.symm
      simp only [pfold]
      rw [if_neg hne]
      exact ih st hx.2
    | Remove l =>
      simp only [List.map_cons, List.mem_cons, not_or, deltaLabel] at hx
      have hne : ¬ l = x := fun hc => hx.1 hc.symm
      simp only [pfold]
      rw [if_neg hne]
      exact ih st hx.2

theorem papply_of_not_mem (x : String) :
    ∀ (D : List LabelDelta) (b : Bool),
      x ∉ D.map deltaLabel → papply D x b = b := by
  intro D
  induction D with
  | nil => intro b _; rfl
  | cons d rest ih =>
    intro b hx
    cases d with
    | Add l =>
      simp only [List.map_cons, List.mem_cons, not_or, deltaLabel] at hx
      have hne : ¬ l = x := fun hc => hx.1 hc.symm
      simp only [papply]
      rw [if_neg hne]
      exact ih b hx.2
    | Remove l =>
      simp only [List.map_cons, List.mem_cons, not_or, deltaLabel] at hx
      have hne : ¬ l = x := fun hc => hx.1 hc.symm
      simp only [papply]
      rw [if_neg hne]
      exact ih b hx.2

theorem papply_eq_pfold (x : String) :
    ∀ (D : List LabelDelta) (b : Bool), (D.map deltaLabel).count x ≤ 1 →
      papply D x b =
        ((pfold D x (false, false)).1 || (b && !(pfold D x (false, false)).2)) := by
  intro D
  induction D with
  | nil => intro b _; simp [papply, pfold]
  | cons d rest ih =>
    intro b hcount
    cases d with
    | Add l =>
      by_cases hlx : l = x
      · subst hlx
        simp only [List.map_cons, deltaLabel, List.count_cons_self] at hcount
        have hzero : (rest.map deltaLabel).count l = 0 := by omega
        have hnm : l ∉ rest.map deltaLabel := by
          rw [← List.count_eq_zero]
          exact hzero
        simp [papply, pfold, papply_of_not_mem l rest, pfold_of_not_mem l rest, hnm]
      · simp only [List.map_cons, deltaLabel] at hcount
        rw [List.count_cons_of_ne (fun hc => hlx hc.symm)] at hcount
        simp only [papply, pfold]
        rw [if_neg hlx, if_neg hlx]
        exact ih b hcount
    | Remove l =>
      by_cases hlx : l = x
      · subst hlx
        simp only [List.map_cons, deltaLabel, List.count_cons_self] at hcount
        have hzero : (rest.map deltaLabel).count l = 0 := by omega
        have hnm : l ∉ rest.map deltaLabel := by
          rw [← List.count_eq_zero]
          exact hzero
        simp [papply, pfold, papply_of_not_mem l rest, pfold_of_not_mem l rest, hnm]
      · simp only [List.map_cons, deltaLabel] at hcount
        rw [List.count_cons_of_ne (fun hc => hlx hc.symm)] at hcount
        simp only [papply, pfold]
        rw [if_neg hlx, if_neg hlx]
        exact ih b hcount

theorem mem_applyDeltasInOrder (x : String) :
    ∀ (D : List LabelDelta) (S : List String),
      decide (x ∈ applyDeltasInOrder D S) = papply D x (decide (x ∈ S)) := by
  intro D
  induction D with
  | nil => intro S; rfl
  | cons d rest ih =>
    intro S
    cases d with
    | Add l =>
      simp only [applyDeltasInOrder, papply]
      rw [ih]
      congr 1
      by_cases hlx : l = x
      · subst hlx
        by_cases hls : l ∈ S <;> simp [hls]
      · have hxl : x ≠ l := fun hc => hlx hc.symm
        by_cases hls : l ∈ S <;> simp [hls, hlx, hxl]
    | Remove l =>
      simp only [applyDeltasInOrder, papply]
      rw [ih]
      congr 1
      by_cases hlx : l = x
      · subst hlx
        simp [List.mem_filter]
      · have hxl : x ≠ l := fun hc => hlx hc.symm
        simp [List.mem_filter, hlx, hxl]

/-- C5 counterexample: resolving `[Add "L", Remove "L"]` yields the empty
delta, but in-order application of those directives to the prior state
`{"L"}` ends with `"L"` absent; so the resolved delta is not equivalent to
in-order application against an arbitrary prior label state. -/
theorem compute_label_deltas_not_inorder :
    ¬ (∀ (D : List LabelDelta) (S : List String) (x : String),
        x ∈ applyDeltasInOrder D S ↔
          (x ∈ (compute_label_deltas D).1 ∨
            (x ∈ S ∧ x ∉ (compute_label_deltas D).2))) := by
  intro hall
  have h := (hall [LabelDelta.Add "L", LabelDelta.Remove "L"] ["L"] "L").mpr (by decide)
  exact absurd h (by decide)

/-- C5 as amended: the resolved delta agrees with in-order application of the
directives to any prior label set, provided no label occurs in more than one
directive; with repeated labels the resolver is cancellation-based
(`[Add L, Remove L]` resolves to the empty delta) and can differ from
in-order application on prior states that already contain (or lack) the
cancelled label. -/
theorem compute_label_deltas_inorder_on_distinct (D : List LabelDelta) (S : List String)
    (x : String) (h : (D.map deltaLabel).Nodup) :
    x ∈ applyDeltasInOrder D S ↔
      (x ∈ (compute_label_deltas D).1 ∨ (x ∈ S ∧ x ∉ (compute_label_deltas D).2)) := by
  have hcount := List.nodup_iff_count_le_one.mp h x
  have hb : decide (x ∈ applyDeltasInOrder D S) =
      (decide (x ∈ (compute_label_deltas D).1) ||
        (decide (x ∈ S) && !decide (x ∈ (compute_label_deltas D).2))) := by
    rw [mem_applyDeltasInOrder x D S, papply_eq_pfold x D (decide (x ∈ S)) hcount,
      ← compute_label_deltas_mem x D]
  constructor
  · intro hx
    have h1 : decide (x ∈ applyDeltasInOrder D S) = true := decide_eq_true hx
    rw [hb] at h1
    simpa only [Bool.or_eq_true, Bool.and_eq_true, Bool.not_eq_true',
      decide_eq_true_eq, decide_eq_false_iff_not] using h1
  · intro hx
    have h1 : (decide (x ∈ (compute_label_deltas D).1) ||
        (decide (x ∈ S) && !decide (x ∈ (compute_label_deltas D).2))) = true := by
      simpa only [Bool.or_eq_true, Bool.and_eq_true, Bool.not_eq_true',
        decide_eq_true_eq, decide_eq_false_iff_not] using hx
    rw [← hb] at h1
    exact of_decide_eq_true h1

theorem compute_label_deltas_inorder_on_distinct_witness :
    (([LabelDelta.Add "A", LabelDelta.Remove "B"].map deltaLabel).Nodup) ∧
    ("A" ∈ applyDeltasInOrder [LabelDelta.Add "A", LabelDelta.Remove "B"] ["B"] ↔
      ("A" ∈ (compute_label_deltas [LabelDelta.Add "A", LabelDelta.Remove "B"]).1 ∨
        ("A" ∈ ["B"] ∧
          "A" ∉ (compute_label_deltas [LabelDelta.Add "A", LabelDelta.Remove "B"]).2))) :=
  ⟨by decide, compute_label_deltas_inorder_on_distinct _ _ _ (by decide)⟩

theorem skipWsAux_mem :
    ∀ (cs : List Char) (pos : Nat) (a : Char), a ∈ (skipWsAux cs pos).1 → a ∈ cs := by
  intro cs
  induction cs with
  | nil => intro pos a ha; simp [skipWsAux] at ha
  | cons c rest ih =>
    intro pos a ha
    by_cases hw : c.isWhitespace
    · rw [show skipWsAux (c :: rest) pos = skipWsAux rest (pos + 1) by
        simp [skipWsAux, hw]] at ha
      exact List.mem_cons_of_mem c (ih (pos + 1) a ha)
    · rw [show skipWsAux (c :: rest) pos = (c :: rest, pos) by
        simp [skipWsAux, hw]] at ha
      exact ha

theorem next_token_word_chars (t t1 : Tokenizer) (w : String)
    (h : next_token t = Except.ok (some (Token.Word w), t1)) :
    ∀ a, a ∈ t1.chars → a ∈ t.chars := by
  intro a ha
  simp only [next_token] at h
  cases h2 : (skipWs t).chars with
  | nil => rw [h2] at h; simp at h
  | cons c cs =>
    rw [h2] at h
    dsimp only at h
    by_cases hc : c = '"'
    · rw [if_pos hc] at h
      cases h3 : scanQuoted cs with
      | none => rw [h3] at h; simp at h
      | some p => rw [h3] at h; simp at h
    · rw [if_neg hc] at h
      simp only [Except.ok.injEq, Prod.mk.injEq, Option.some.injEq, Token.Word.injEq] at h
      have ht1 : t1.chars = cs.drop (cs.takeWhile wordChar).length := by
        rw [← h.2]
      rw [ht1] at ha
      have ha2 : a ∈ cs := List.drop_subset _ cs ha
      have ha3 : a ∈ (skipWs t).chars := by
        rw [h2]; exact List.mem_cons_of_mem c ha2
      exact skipWsAux_mem t.chars t.pos a ha3

theorem next_token_quote_has_quote (t t1 : Tokenizer) (s : String)
    (h : next_token t = Except.ok (some (Token.Quote s), t1)) : '"' ∈ t.chars := by
  simp only [next_token] at h
  cases h2 : (skipWs t).chars with
  | nil => rw [h2] at h; simp at h
  | cons c cs =>
    rw [h2] at h
    dsimp only at h
    by_cases hc : c = '"'
    · have : '"' ∈ (skipWs t).chars := by
        rw [h2, ← hc]; exact List.mem_cons_self c cs
      exact skipWsAux_mem t.chars t.pos _ this
    · rw [if_neg hc] at h
      simp at h

theorem noteLoop_title_not_remove :
    ∀ (fuel : Nat) (toks : Tokenizer) (b : Bool) (cmd : NoteCommand),
      '"' ∉ toks.chars → noteLoop fuel toks b = Except.ok (some cmd) →
      noteTitle cmd ≠ "remove" := by
  intro fuel
  induction fuel with
  | zero => intro toks b cmd _ h; simp [noteLoop] at h
  | succ fuel ih =>
    intro toks b cmd hq h
    cases hnt : next_token toks with
    | error e => simp [noteLoop, hnt] at h
    | ok p =>
      obtain ⟨tk, toks1⟩ := p
      cases tk with
      | none => simp [noteLoop, hnt] at h
      | some tok =>
        cases tok with
        | Quote s => exact absurd (next_token_quote_has_quote toks toks1 s hnt) hq
        | Word title =>
          by_cases ht : title = "remove"
          · subst ht
            rw [show noteLoop (fuel + 1) toks b = noteLoop fuel toks1 true by
              simp [noteLoop, hnt]] at h
            have hq1 : '"' ∉ toks1.chars :=
              fun hcc => hq (next_token_word_chars toks toks1 "remove" hnt '"' hcc)
            exact ih toks1 true cmd hq1 h
          · rw [show noteLoop (fuel + 1) toks b =
                Except.ok (some (if b then NoteCommand.Remove title
                  else NoteCommand.Summary title)) by
              simp [noteLoop, hnt, ht]] at h
            simp only [Except.ok.injEq, Option.some.injEq] at h
            subst h
            cases b <;> simpa [noteTitle] using ht

/-- C7: before a title is found, an unquoted word equal to `remove` always
sets the flag and is never taken as the title: on any input containing no
quote character, `NoteCommand::parse` can never produce a command whose title
is `remove`; the input `note remove "remove"` (title quoted) does produce
`Remove{title: "remove"}`; and a `remove` word just recurses with the flag
set, whatever the flag already was (so repeating it has no further effect). -/
theorem note_parse_remove_flag_never_title :
    (∀ (t : Tokenizer) (cmd : NoteCommand), '"' ∉ t.chars →
      (NoteCommand.parse t).1 = Except.ok (some cmd) → noteTitle cmd ≠ "remove") ∧
    (NoteCommand.parse (Tokenizer.new "note remove \"remove\"")).1 =
      Except.ok (some (NoteCommand.Remove "remove")) ∧
    (∀ (fuel : Nat) (toks toks1 : Tokenizer) (b : Bool),
      next_token toks = Except.ok (some (Token.Word "remove"), toks1) →
      noteLoop (fuel + 1) toks b = noteLoop fuel toks1 true) := by
  refine ⟨?_, by decide, ?_⟩
  · intro t cmd hq h
    cases hnt : next_token t with
    | error e => simp [NoteCommand.parse, peek_token, Except.map, hnt] at h
    | ok p =>
      obtain ⟨tk, toks1⟩ := p
      cases tk with
      | none => simp [NoteCommand.parse, peek_token, Except.map, hnt] at h
      | some tok =>
        cases tok with
        | Quote s => simp [NoteCommand.parse, peek_token, Except.map, hnt] at h
        | Word w =>
          by_cases hw : w = "note"
          · subst hw
            rw [show (NoteCommand.parse t).1 =
                noteLoop (toks1.chars.length + 1) toks1 false by
              simp [NoteCommand.parse, peek_token, Except.map, hnt]] at h
            have hq1 : '"' ∉ toks1.chars :=
              fun hcc => hq (next_token_word_chars t toks1 "note" hnt '"' hcc)
            exact noteLoop_title_not_remove (toks1.chars.length + 1) toks1 false cmd hq1 h
          · simp [NoteCommand.parse, peek_token, Except.map, hnt, hw] at h
  · intro fuel toks toks1 b hnt
    simp [noteLoop, hnt]

theorem note_parse_remove_flag_never_title_witness :
    (noteTitle (NoteCommand.Summary "stuff") ≠ "remove") ∧
    noteLoop 1 (Tokenizer.new "remove x") false =
      noteLoop 0 { chars := [' ', 'x'], pos := 6 } true :=
  ⟨note_parse_remove_flag_never_title.1 (Tokenizer.new "note stuff")
      (NoteCommand.Summary "stuff") (by decide) (by decide),
    note_parse_remove_flag_never_title.2.2 0 (Tokenizer.new "remove x")
      { chars := [' ', 'x'], pos := 6 } false (by decide)⟩
